import Mathlib

/-!
Shallow embedding of the comrot package (src/comrot.go): a size-triggered,
compressing, rotating log writer.  Pure data is modelled directly; the
filesystem is an explicit map from path names to byte contents; the
operational functions (`openM`, `closeM`, `rotateM`, `writeM`, `drainM`)
mirror the Go methods `open`, `close`, `rotate`, `Write`, `drain` statement
by statement.  Byte strings are `List Nat`; Go string indexing is by bytes,
and all names involved are ASCII, so characters stand in for bytes.
-/

namespace Comrot

/-! ## Time: RFC3339 timestamps as Go formats and parses them

`time.RFC3339 = "2006-01-02T15:04:05Z07:00"`.  `Format` prints the zone as
`Z` when the offset is zero and as `±hh:mm` otherwise; `Parse` accepts both
forms and validates field ranges.  A `GoTime` carries broken-down fields
plus the zone offset in minutes. -/

structure GoTime where
  year : Nat
  month : Nat
  day : Nat
  hour : Nat
  minute : Nat
  sec : Nat
  offMin : Int
deriving DecidableEq, Repr

def isLeap (y : Nat) : Bool :=
  decide ((y % 4 = 0 ∧ y % 100 ≠ 0) ∨ y % 400 = 0)

def daysIn (y m : Nat) : Nat :=
  if m = 2 then (if isLeap y then 29 else 28)
  else if m = 4 ∨ m = 6 ∨ m = 9 ∨ m = 11 then 30
  else 31

def GoTime.valid (t : GoTime) : Prop :=
  t.year ≤ 9999 ∧ 1 ≤ t.month ∧ t.month ≤ 12 ∧
  1 ≤ t.day ∧ t.day ≤ daysIn t.year t.month ∧
  t.hour < 24 ∧ t.minute < 60 ∧ t.sec < 60 ∧ t.offMin.natAbs < 1440

instance (t : GoTime) : Decidable t.valid := by
  unfold GoTime.valid; infer_instance

def pad2 (n : Nat) : List Char :=
  [Char.ofNat (48 + n / 10 % 10), Char.ofNat (48 + n % 10)]

def pad4 (n : Nat) : List Char :=
  [Char.ofNat (48 + n / 1000 % 10), Char.ofNat (48 + n / 100 % 10),
   Char.ofNat (48 + n / 10 % 10), Char.ofNat (48 + n % 10)]

def zoneChars (off : Int) : List Char :=
  if off = 0 then ['Z']
  else (if off < 0 then '-' else '+') ::
    (pad2 (off.natAbs / 60) ++ ':' :: pad2 (off.natAbs % 60))

def GoTime.fmtChars (t : GoTime) : List Char :=
  pad4 t.year ++ '-' :: (pad2 t.month ++ '-' :: (pad2 t.day ++
    'T' :: (pad2 t.hour ++ ':' :: (pad2 t.minute ++ ':' :: (pad2 t.sec ++
      zoneChars t.offMin)))))

def GoTime.fmt (t : GoTime) : String :=
  String.mk t.fmtChars

def digVal (c : Char) : Option Nat :=
  if 48 ≤ c.toNat ∧ c.toNat ≤ 57 then some (c.toNat - 48) else none

def num2 (a b : Char) : Option Nat := do
  pure ((← digVal a) * 10 + (← digVal b))

def num4 (a b c d : Char) : Option Nat := do
  pure (((← digVal a) * 10 + (← digVal b)) * 100 +
    ((← digVal c) * 10 + (← digVal d)))

def parseZone : List Char → Option Int
  | ['Z'] => some 0
  | [s, h1, h2, c, m1, m2] =>
    if c = ':' then do
      let hh ← num2 h1 h2
      let mm ← num2 m1 m2
      if hh < 24 ∧ mm < 60 then
        if s = '+' then some ((hh * 60 + mm : Nat) : Int)
        else if s = '-' then some (-((hh * 60 + mm : Nat) : Int))
        else none
      else none
    else none
  | _ => none

def parseChars : List Char → Option GoTime
  | y1 :: y2 :: y3 :: y4 :: s1 :: mo1 :: mo2 :: s2 :: d1 :: d2 :: s3 ::
      h1 :: h2 :: s4 :: mi1 :: mi2 :: s5 :: se1 :: se2 :: rest =>
    if s1 = '-' ∧ s2 = '-' ∧ s3 = 'T' ∧ s4 = ':' ∧ s5 = ':' then do
      let y ← num4 y1 y2 y3 y4
      let mo ← num2 mo1 mo2
      let d ← num2 d1 d2
      let h ← num2 h1 h2
      let mi ← num2 mi1 mi2
      let se ← num2 se1 se2
      let off ← parseZone rest
      if 1 ≤ mo ∧ mo ≤ 12 ∧ 1 ≤ d ∧ d ≤ daysIn y mo ∧
          h < 24 ∧ mi < 60 ∧ se < 60 then
        some ⟨y, mo, d, h, mi, se, off⟩
      else none
    else none
  | _ => none

def parseRFC3339 (s : String) : Option GoTime :=
  parseChars s.data

/-! Absolute instant in seconds (days-from-civil algorithm); this is the
order `time.Time.After` compares by, used as the retention sort key. -/

def civilDays (y m d : Nat) : Int :=
  let ys : Int := (y : Int) - (if m ≤ 2 then 1 else 0)
  let era : Int := ys / 400
  let yoe : Int := ys - era * 400
  let mp : Int := ((m + 9) % 12 : Nat)
  let doy : Int := (153 * mp + 2) / 5 + (d : Int) - 1
  let doe : Int := yoe * 365 + yoe / 4 - yoe / 100 + doy
  era * 146097 + doe - 719468

def GoTime.toSec (t : GoTime) : Int :=
  civilDays t.year t.month t.day * 86400 +
    ((t.hour * 3600 + t.minute * 60 + t.sec : Nat) : Int) - t.offMin * 60

/-! ## Constants (src/comrot.go lines 18-27), on a 64-bit platform -/

def MaxInt : Nat := 2 ^ 63 - 1

def MB : Nat := 2 ^ 20

def TimeFmt : String := "2006-01-02T15:04:05Z07:00"

def DefaultMaxSize : Nat := 10 * MB

def DefaultMaxFiles : Nat := MaxInt

/-! ## Data model

Byte contents are `List Nat`; the filesystem maps a path name to the
contents of the file stored there, `none` meaning the path does not exist.
`handles` counts the OS-level descriptors currently open for the log path
(opened by `os.Create` / `os.OpenFile`, released by `os.File.Close`), so
leaks are observable.  `sweeps` is ghost instrumentation counting how many
times the retention sweep has been invoked. -/

inductive GoErr where
  | errInvalid
  | fsErr (code : Nat)
deriving DecidableEq, Repr

structure DirEnt where
  name : String
  isDir : Bool
deriving DecidableEq, Repr

structure Conf where
  filename : String
  maxSize : Nat
  maxFiles : Nat
  compress : Bool
  gz : List Nat → List Nat

structure Sys where
  fs : String → Option (List Nat)
  fp : Bool
  fsize : Nat
  handles : Nat
  sweeps : Nat

def fsSet (fs : String → Option (List Nat)) (name : String)
    (c : List Nat) : String → Option (List Nat) :=
  fun n => if n = name then some c else fs n

def fsRemove (fs : String → Option (List Nat)) (name : String) :
    String → Option (List Nat) :=
  fun n => if n = name then none else fs n

/-- os.Rename: moves src to dst, overwriting any file already at dst. -/
def fsRename (fs : String → Option (List Nat)) (src dst : String) :
    String → Option (List Nat) :=
  fun n => if n = dst then fs src else if n = src then none else fs n

/-! ## Path helpers (filepath.Base / Dir / Join on the slash paths used
here; trailing-slash and empty-path edge cases are out of scope) -/

/-- Characters after the last slash (accumulator holds the current
component reversed). -/
def lastComp : List Char → List Char → List Char
  | [], acc => acc.reverse
  | '/' :: rest, _ => lastComp rest []
  | c :: rest, acc => lastComp rest (c :: acc)

def baseName (s : String) : String :=
  String.mk (lastComp s.data [])

def dirName (s : String) : String :=
  let n := s.data.length - (lastComp s.data []).length
  if n = 0 then "." else String.mk (s.data.take (n - 1))

def joinPath (d n : String) : String :=
  if d = "." then n else d ++ "/" ++ n

/-! ## Retention sweep core (drain, src/comrot.go lines 218-259) -/

/-- Go string slicing file[lo:hi]; indices out of range are a runtime
panic, modelled as `Except.error`. -/
def goSlice (file : String) (lo hi : Nat) : Except Unit (List Char) :=
  if lo ≤ hi ∧ hi ≤ file.data.length then
    Except.ok ((file.data.drop lo).take (hi - lo))
  else Except.error ()

structure FragInfo where
  t : GoTime
  ent : DirEnt
deriving DecidableEq, Repr

/-- The fragment-collection loop (lines 229-243): skip directories and the
entry whose name equals `w.filename`, slice the fixed-width timestamp out
of every other name (which panics when the name is too short), and keep
the entries whose slice parses. -/
def collectFrags (conf : Conf) : List DirEnt → Except Unit (List FragInfo)
  | [] => Except.ok []
  | f :: rest =>
    if f.isDir then collectFrags conf rest
    else if f.name = conf.filename then collectFrags conf rest
    else
      let base := baseName conf.filename
      match goSlice f.name (base.length + 1)
          (base.length + 1 + TimeFmt.length) with
      | Except.error e => Except.error e
      | Except.ok ts =>
        match parseChars ts with
        | some t => do pure (⟨t, f⟩ :: (← collectFrags conf rest))
        | none => collectFrags conf rest

/-- byTime.Less (lines 267-273) sorts descending by `time.After`, i.e.
nonincreasing absolute instants. -/
def byTimeLe (a b : FragInfo) : Bool :=
  decide (b.t.toSec ≤ a.t.toSec)

/-- drain's sort-and-partition (lines 244-251): sort descending, retain
the first `maxFiles` fragments, delete the rest; a no-op when `maxFiles`
is the `MaxInt` sentinel (lines 219-221). -/
def drainPlan (conf : Conf) (entries : List DirEnt) :
    Except Unit (List FragInfo × List FragInfo) :=
  if conf.maxFiles = MaxInt then Except.ok ([], [])
  else do
    let frags ← collectFrags conf entries
    let sorted := frags.mergeSort byTimeLe
    pure (sorted.take conf.maxFiles, sorted.drop conf.maxFiles)

/-- The base names of the files drain deletes (lines 253-258). -/
def drainDeletes (conf : Conf) (entries : List DirEnt) :
    Except Unit (List String) :=
  (drainPlan conf entries).map fun p => p.2.map fun f => f.ent.name

/-! ## Writer operations

Filesystem primitives are external collaborators; each operation takes an
environment record choosing their outcomes (`none` = the call succeeds).
A `some e` result makes the model take exactly the error path the Go code
takes. -/

structure OpenEnv where
  createErr : Option GoErr
  openErr : Option GoErr
deriving DecidableEq, Repr

/-- open (lines 125-138).  Stat is answered by the filesystem map.  Not
exists: `w.fp, err = os.Create(...)` — on failure fp is set to nil while
`w.fsize = int64(0)` has been assigned anyway; on success a fresh
descriptor is opened (any descriptor `fp` previously held is dropped
without being closed, so `handles` is not decremented).  Exists:
`os.OpenFile(..., O_APPEND|O_WRONLY, ...)`; on failure fp is nil and
`fsize` keeps its stale value, on success `fsize` is primed from the
stat size, i.e. the on-disk length. -/
def openM (conf : Conf) (env : OpenEnv) (s : Sys) : Sys × Option GoErr :=
  match s.fs conf.filename with
  | none =>
    match env.createErr with
    | none => ({ s with
        fs := fsSet s.fs conf.filename [],
        fp := true,
        handles := s.handles + 1,
        fsize := 0 }, none)
    | some e => ({ s with fp := false, fsize := 0 }, some e)
  | some c =>
    match env.openErr with
    | none => ({ s with
        fp := true,
        handles := s.handles + 1,
        fsize := c.length }, none)
    | some e => ({ s with fp := false }, some e)

/-- close (lines 108-114).  The code runs `w.fp = nil` first and only then
`return w.fp.Close()`, so it always calls Close on a nil `*os.File`,
which returns ErrInvalid; the descriptor that was actually held is never
released, hence `handles` is unchanged. -/
def closeM (s : Sys) : Sys × Option GoErr :=
  if s.fp = false then (s, none)
  else ({ s with fp := false }, some GoErr.errInvalid)

structure CompressEnv where
  srcOpenErr : Option GoErr
  readErr : Option GoErr
  writeFileErr : Option GoErr
deriving DecidableEq, Repr

/-- compress (lines 182-215): read the source file, gzip it into
`source + ".gz"` and remove the uncompressed source (the removal is a
background goroutine; it is modelled at its eventual completion).  The
single buffered read is modelled as returning the full contents, the
conventional behaviour for a regular file. -/
def compressM (conf : Conf) (env : CompressEnv) (source : String)
    (s : Sys) : Sys × Option GoErr :=
  match s.fs source with
  | none => (s, some (GoErr.fsErr 2))
  | some content =>
    match env.srcOpenErr with
    | some e => (s, some e)
    | none =>
      match env.readErr with
      | some e => (s, some e)
      | none =>
        match env.writeFileErr with
        | some e => (s, some e)
        | none =>
          ({ s with
            fs := fsRemove
              (fsSet s.fs (source ++ ".gz") (conf.gz content)) source },
           none)

/-- drain (lines 218-259) at the system level.  The directory listing is
an external collaborator (`none` = ioutil.ReadDir failed, which drain
swallows).  The returned flag reports whether the fragment loop panicked.
The ghost `sweeps` counter records the invocation. -/
def drainM (conf : Conf) (listing : Option (List DirEnt)) (s : Sys) :
    Sys × Bool :=
  let s0 := { s with sweeps := s.sweeps + 1 }
  if conf.maxFiles = MaxInt then (s0, false)
  else
    match listing with
    | none => (s0, false)
    | some entries =>
      match drainDeletes conf entries with
      | Except.error _ => (s0, true)
      | Except.ok dels =>
        ({ s0 with
          fs := dels.foldl
            (fun f n => fsRemove f (joinPath (dirName conf.filename) n))
            s0.fs },
         false)

inductive RotOut where
  | ok
  | errOut (e : GoErr)
  | panicked
deriving DecidableEq, Repr

structure RotEnv where
  now : GoTime
  closeErr : Option GoErr
  renameErr : Option GoErr
  cenv : CompressEnv
  listing : Option (List DirEnt)
  oenv : OpenEnv
deriving Repr

/-- Tail of rotate (lines 174-178): clean up old fragments, then create
the new file; open's error is rotate's return value. -/
def rotateFinish (conf : Conf) (env : RotEnv) (s : Sys) : Sys × RotOut :=
  match drainM conf env.listing s with
  | (s4, true) => (s4, RotOut.panicked)
  | (s4, false) =>
    match openM conf env.oenv s4 with
    | (s5, none) => (s5, RotOut.ok)
    | (s5, some e) => (s5, RotOut.errOut e)

/-- Name of the archive produced by a rotation at instant `t`,
`w.filename + "." + time.Now().Format(TimeFmt)` (line 161). -/
def rotName (conf : Conf) (t : GoTime) : String :=
  conf.filename ++ "." ++ t.fmt

/-- Middle of rotate (lines 158-172): if the path exists, rename it to the
timestamped archive name and, when compression is on, compress the
archive; rename and compress failures return immediately. -/
def rotateRename (conf : Conf) (env : RotEnv) (s1 : Sys) : Sys × RotOut :=
  match s1.fs conf.filename with
  | some _ =>
    match env.renameErr with
    | some e => (s1, RotOut.errOut e)
    | none =>
      let s2 := { s1 with
        fs := fsRename s1.fs conf.filename (rotName conf env.now) }
      if conf.compress then
        match compressM conf env.cenv (rotName conf env.now) s2 with
        | (s3, some e) => (s3, RotOut.errOut e)
        | (s3, none) => rotateFinish conf env s3
      else rotateFinish conf env s2
  | none => rotateFinish conf env s1

/-- rotate (lines 148-179).  Close the handle if open (`err = w.fp.Close();
w.fp = nil` — the descriptor is released and fp cleared before the error
check, so a close failure still leaves the writer closed); then rename /
compress / drain / reopen. -/
def rotateM (conf : Conf) (env : RotEnv) (s : Sys) : Sys × RotOut :=
  if s.fp then
    match env.closeErr with
    | some e => ({ s with fp := false, handles := s.handles - 1 },
        RotOut.errOut e)
    | none =>
      rotateRename conf env { s with fp := false, handles := s.handles - 1 }
  else rotateRename conf env s

structure WriteEnv where
  oenv : OpenEnv
  renv : RotEnv
  persist : Nat
  writeErr : Option GoErr
deriving Repr

/-- Write (lines 76-98).  Open if closed and rotate if the write would
exceed the threshold — both with their error results discarded (lines
81-88) — then `n, err := w.fp.Write(out); w.fsize += int64(n)`.  The
underlying write persists and reports `min env.persist out.length` bytes
(a partial write reports the bytes it did persist).  When fp is nil the
nil-receiver `(*os.File).Write` returns 0 and ErrInvalid.  A `none`
result means a panic escaped the call. -/
def writeM (conf : Conf) (env : WriteEnv) (s : Sys) (out : List Nat) :
    Sys × Option (Nat × Option GoErr) :=
  let s1 := if s.fp then s else (openM conf env.oenv s).1
  match (if s1.fsize + out.length > conf.maxSize
         then rotateM conf env.renv s1 else (s1, RotOut.ok)) with
  | (s2, RotOut.panicked) => (s2, none)
  | (s2, _) =>
    if s2.fp then
      let n := min env.persist out.length
      ({ s2 with
          fs := fsSet s2.fs conf.filename
            ((s2.fs conf.filename).getD [] ++ out.take n),
          fsize := s2.fsize + n }, some (n, env.writeErr))
    else
      (s2, some (0, some GoErr.errInvalid))

/-- The sweep cannot panic: unbounded retention, a failed listing, or a
listing on which the fragment loop completes. -/
def DrainSafe (conf : Conf) (listing : Option (List DirEnt)) : Prop :=
  conf.maxFiles = MaxInt ∨ listing = none ∨
    ∃ l d, listing = some l ∧ drainDeletes conf l = Except.ok d

/-- Failure of some stage of compress, returning error `e`. -/
def CErrAt (cenv : CompressEnv) (e : GoErr) : Prop :=
  cenv.srcOpenErr = some e ∨
  (cenv.srcOpenErr = none ∧ cenv.readErr = some e) ∨
  (cenv.srcOpenErr = none ∧ cenv.readErr = none ∧
    cenv.writeFileErr = some e)

/-- NewRotateWriter (lines 61-73): defaults, then Open; nil on error.
The gzip collaborator is passed through to the configuration. -/
def newRotateWriter (gzip0 : List Nat → List Nat) (filename : String)
    (env : OpenEnv) (s : Sys) : Option (Conf × Sys) :=
  let conf : Conf := { filename := filename
                       maxSize := DefaultMaxSize
                       maxFiles := DefaultMaxFiles
                       compress := true
                       gz := gzip0 }
  match openM conf env s with
  | (s1, none) => some (conf, s1)
  | (_, some _) => none

/-! ## Concrete instances for witnesses and counterexamples -/

def tA : GoTime := ⟨2026, 10, 12, 10, 0, 0, 60⟩

def tB : GoTime := ⟨2026, 10, 12, 9, 0, 0, 60⟩

def tZ : GoTime := ⟨2026, 10, 12, 12, 34, 56, 0⟩

def okOpen : OpenEnv := ⟨none, none⟩

def okCEnv : CompressEnv := ⟨none, none, none⟩

def okREnv : RotEnv := ⟨tA, none, none, okCEnv, none, okOpen⟩

def okWEnv : WriteEnv := ⟨okOpen, okREnv, 1000, none⟩

def confW : Conf := ⟨"f", 100, 1, false, id⟩

def sFresh : Sys := ⟨fun _ => none, false, 0, 0, 0⟩

def sOpenA : Sys :=
  ⟨fun n => if n = "f" then some [1, 2, 3] else none, true, 3, 1, 0⟩

def sClosedB : Sys :=
  ⟨fun n => if n = "f" then some [97] else none, false, 1, 0, 0⟩

def sOpenB : Sys :=
  ⟨fun n => if n = "f" then some [97] else none, true, 1, 1, 0⟩

def failCreateEnv : OpenEnv := ⟨some (GoErr.fsErr 13), none⟩

def wenvOpenFail : WriteEnv := ⟨failCreateEnv, okREnv, 1000, none⟩

def renvRenameFail : RotEnv :=
  ⟨tA, none, some (GoErr.fsErr 30), okCEnv, none, okOpen⟩

def wenvRotFail : WriteEnv := ⟨okOpen, renvRenameFail, 1000, none⟩

def wenvPartial : WriteEnv := ⟨okOpen, okREnv, 2, some (GoErr.fsErr 28)⟩

def sNearFull : Sys :=
  ⟨fun n => if n = "f" then some (List.replicate 99 7) else none,
   true, 99, 1, 0⟩

def confD : Conf := ⟨"f", DefaultMaxSize, DefaultMaxFiles, true, id⟩

def sD : Sys := (openM confD okOpen sFresh).1

def entNew : DirEnt := ⟨"f.2026-10-12T10:00:00+01:00", false⟩

def entOld : DirEnt := ⟨"f.2026-10-12T09:00:00+01:00", false⟩

def entsW : List DirEnt := [entOld, entNew]

def fragsW : List FragInfo := [⟨tB, entOld⟩, ⟨tA, entNew⟩]

def entShort : DirEnt := ⟨"x", false⟩

def entsC4x : List DirEnt := [entOld, entNew, entShort]

def confC8 : Conf := ⟨"comrot.log", 100, 1, true, id⟩

/-! ## Trace model: no data loss across rotation

A trace interleaves Write calls (each carrying the clock instant the
rotation would use and the byte count the underlying write persists),
manual Rotates, Closes and Opens, all run under environments in which the
filesystem collaborators succeed.  `encName`/`encBytes` describe where and
how a rotation at instant `t` archives the live contents; `chronoConcat`
is the claim's left-hand side: the archives' decompressed contents joined
in chronological order. -/

def rotEnvAt (t : GoTime) : RotEnv := ⟨t, none, none, okCEnv, none, okOpen⟩

inductive Op where
  | writeOp (out : List Nat) (t : GoTime) (persist : Nat)
  | rotateOp (t : GoTime)
  | closeOp
  | openOp
deriving Repr

def runOp (conf : Conf) (s : Sys) : Op → Sys
  | Op.writeOp out t persist =>
    (writeM conf ⟨okOpen, rotEnvAt t, persist, none⟩ s out).1
  | Op.rotateOp t => (rotateM conf (rotEnvAt t) s).1
  | Op.closeOp => (closeM s).1
  | Op.openOp => (openM conf okOpen s).1

def runOps (conf : Conf) (s : Sys) : List Op → Sys
  | [] => s
  | op :: rest => runOps conf (runOp conf s op) rest

/-- The bytes one Write reports written: `take (min persist len)`. -/
def chunkOf (out : List Nat) (persist : Nat) : List Nat :=
  out.take (min persist out.length)

/-- All bytes successfully reported written across the trace. -/
def writtenBytes : List Op → List Nat
  | [] => []
  | Op.writeOp out _ persist :: rest =>
    chunkOf out persist ++ writtenBytes rest
  | Op.rotateOp _ :: rest => writtenBytes rest
  | Op.closeOp :: rest => writtenBytes rest
  | Op.openOp :: rest => writtenBytes rest

/-- The clock instants observed across the trace. -/
def opsTimes : List Op → List GoTime
  | [] => []
  | Op.writeOp _ t _ :: rest => t :: opsTimes rest
  | Op.rotateOp t :: rest => t :: opsTimes rest
  | Op.closeOp :: rest => opsTimes rest
  | Op.openOp :: rest => opsTimes rest

/-- Name under which a rotation at instant `t` leaves its archive. -/
def encName (conf : Conf) (t : GoTime) : String :=
  if conf.compress then rotName conf t ++ ".gz" else rotName conf t

/-- Contents stored in that archive, given live contents `c`. -/
def encBytes (conf : Conf) (c : List Nat) : List Nat :=
  if conf.compress then conf.gz c else c

/-- Decompress an archive when compression is on. -/
def decBytes (ungz : List Nat → List Nat) (conf : Conf) (c : List Nat) :
    List Nat :=
  if conf.compress then ungz c else c

/-- The claim's concatenation: archives at instants `ts` (in order),
decompressed and joined. -/
def chronoConcat (ungz : List Nat → List Nat) (conf : Conf)
    (ts : List GoTime) (fs : String → Option (List Nat)) : List Nat :=
  (ts.map fun t => decBytes ungz conf ((fs (encName conf t)).getD [])).flatten

/-- Invariant tying a filesystem to the archive history: each archive
instant maps to its (possibly compressed) chunk, the archives' chunks
followed by the live contents are exactly the reported written bytes, and
nothing else exists on disk. -/
def GoodFs (conf : Conf) (arch : List (GoTime × List Nat))
    (written : List Nat) (fs : String → Option (List Nat)) : Prop :=
  (∀ p ∈ arch, fs (encName conf p.1) = some (encBytes conf p.2)) ∧
  ((arch.map Prod.snd).flatten ++ (fs conf.filename).getD [] = written) ∧
  (∀ name, name ≠ conf.filename →
    (∀ p ∈ arch, name ≠ encName conf p.1) → fs name = none)

/-- Strict chronological order on instants. -/
def tlt (a b : GoTime) : Prop := a.toSec < b.toSec

instance (a b : GoTime) : Decidable (tlt a b) := by
  unfold tlt
  infer_instance

def confY : Conf := ⟨"f", 1, MaxInt, false, id⟩

def opsY : List Op := [Op.writeOp [1, 2] tB 10, Op.writeOp [3] tA 10]

def confX : Conf := ⟨"f", 100, MaxInt, false, id⟩

def opsX : List Op :=
  [Op.writeOp [97] tA 10, Op.rotateOp tA, Op.writeOp [98] tA 10,
   Op.rotateOp tA, Op.writeOp [99] tA 10]

/-! ## Theorems -/

/-! Round trip: parsing a formatted valid time recovers it exactly. -/

theorem digVal_ofNat {n : Nat} (h : n < 10) :
    digVal (Char.ofNat (48 + n)) = some n := by
  interval_cases n <;> decide

theorem num2_pad2 {n : Nat} (h : n ≤ 99) :
    num2 (Char.ofNat (48 + n / 10 % 10)) (Char.ofNat (48 + n % 10)) =
      some n := by
  simp only [num2]
  rw [digVal_ofNat (Nat.mod_lt _ (by decide)),
    digVal_ofNat (Nat.mod_lt _ (by decide))]
  simp only [Option.pure_def, Option.bind_eq_bind, Option.some_bind,
    Option.some.injEq]
  omega

theorem num4_pad4 {n : Nat} (h : n ≤ 9999) :
    num4 (Char.ofNat (48 + n / 1000 % 10)) (Char.ofNat (48 + n / 100 % 10))
      (Char.ofNat (48 + n / 10 % 10)) (Char.ofNat (48 + n % 10)) =
      some n := by
  simp only [num4]
  rw [digVal_ofNat (Nat.mod_lt _ (by decide)),
    digVal_ofNat (Nat.mod_lt _ (by decide)),
    digVal_ofNat (Nat.mod_lt _ (by decide)),
    digVal_ofNat (Nat.mod_lt _ (by decide))]
  simp only [Option.pure_def, Option.bind_eq_bind, Option.some_bind,
    Option.some.injEq]
  omega

theorem parseZone_posChars {p q : Nat} (hp : p < 24) (hq : q < 60) :
    parseZone ('+' :: (pad2 p ++ ':' :: pad2 q)) =
      some ((p * 60 + q : Nat) : Int) := by
  simp only [pad2, List.cons_append, List.nil_append, parseZone,
    num2_pad2 (show p ≤ 99 by omega), num2_pad2 (show q ≤ 99 by omega),
    Option.bind_eq_bind, Option.some_bind]
  simp [hp, hq]

theorem parseZone_negChars {p q : Nat} (hp : p < 24) (hq : q < 60) :
    parseZone ('-' :: (pad2 p ++ ':' :: pad2 q)) =
      some (-((p * 60 + q : Nat) : Int)) := by
  simp only [pad2, List.cons_append, List.nil_append, parseZone,
    num2_pad2 (show p ≤ 99 by omega), num2_pad2 (show q ≤ 99 by omega),
    Option.bind_eq_bind, Option.some_bind]
  simp [hp, hq]

theorem parseZone_zoneChars {off : Int} (h : off.natAbs < 1440) :
    parseZone (zoneChars off) = some off := by
  by_cases h0 : off = 0
  · simp [zoneChars, h0, parseZone]
  by_cases hneg : off < 0
  · have hz : zoneChars off =
        '-' :: (pad2 (off.natAbs / 60) ++ ':' :: pad2 (off.natAbs % 60)) := by
      simp [zoneChars, h0, hneg]
    rw [hz, parseZone_negChars (by omega) (Nat.mod_lt _ (by decide))]
    congr 1
    omega
  · have hz : zoneChars off =
        '+' :: (pad2 (off.natAbs / 60) ++ ':' :: pad2 (off.natAbs % 60)) := by
      simp [zoneChars, h0, hneg]
    rw [hz, parseZone_posChars (by omega) (Nat.mod_lt _ (by decide))]
    congr 1
    omega

theorem parseChars_fmtChars {t : GoTime} (h : t.valid) :
    parseChars t.fmtChars = some t := by
  obtain ⟨hy, hm1, hm2, hd1, hd2, hh, hmi, hs, hoff⟩ := h
  have hdle : t.day ≤ 99 := by
    have hb : daysIn t.year t.month ≤ 31 := by
      unfold daysIn; split
      · split <;> omega
      · split <;> omega
    omega
  simp only [GoTime.fmtChars, pad4, pad2, List.cons_append, List.nil_append,
    parseChars, num4_pad4 hy, num2_pad2 (show t.month ≤ 99 by omega),
    num2_pad2 hdle, num2_pad2 (show t.hour ≤ 99 by omega),
    num2_pad2 (show t.minute ≤ 99 by omega),
    num2_pad2 (show t.sec ≤ 99 by omega), parseZone_zoneChars hoff,
    Option.bind_eq_bind, Option.some_bind]
  have hc : 1 ≤ t.month ∧ t.month ≤ 12 ∧ 1 ≤ t.day ∧
      t.day ≤ daysIn t.year t.month ∧ t.hour < 24 ∧ t.minute < 60 ∧
      t.sec < 60 := ⟨hm1, hm2, hd1, hd2, hh, hmi, hs⟩
  rw [if_pos hc]
  simp

theorem parseRFC3339_fmt {t : GoTime} (h : t.valid) :
    parseRFC3339 t.fmt = some t :=
  parseChars_fmtChars h

theorem fmt_inj {t u : GoTime} (ht : t.valid) (hu : u.valid)
    (he : t.fmt = u.fmt) : t = u := by
  have h1 := parseRFC3339_fmt ht
  have h2 := parseRFC3339_fmt hu
  rw [he, h2] at h1
  exact (Option.some.injEq _ _ ▸ h1.symm)

theorem byTimeLe_trans (a b c : FragInfo) (h1 : byTimeLe a b)
    (h2 : byTimeLe b c) : byTimeLe a c = true := by
  simp only [byTimeLe, decide_eq_true_eq] at h1 h2 ⊢
  omega

theorem byTimeLe_total (a b : FragInfo) :
    (byTimeLe a b || byTimeLe b a) = true := by
  simp only [byTimeLe, Bool.or_eq_true, decide_eq_true_eq]
  omega

theorem foldlRemove_eq_none {g : String → String} {dels : List String}
    {fs : String → Option (List Nat)} {x : String} (h : fs x = none) :
    (dels.foldl (fun f n => fsRemove f (g n)) fs) x = none := by
  induction dels generalizing fs with
  | nil => exact h
  | cons d rest ih =>
    simp only [List.foldl_cons]
    exact ih (by simp only [fsRemove]; split <;> simp [h])

theorem drainM_safe {conf : Conf} {listing : Option (List DirEnt)}
    (h : DrainSafe conf listing) (s : Sys) :
    (drainM conf listing s).2 = false ∧
    (drainM conf listing s).1.sweeps = s.sweeps + 1 ∧
    (drainM conf listing s).1.fp = s.fp ∧
    (drainM conf listing s).1.fsize = s.fsize ∧
    (drainM conf listing s).1.handles = s.handles ∧
    (∀ x, s.fs x = none → (drainM conf listing s).1.fs x = none) := by
  by_cases hmf : conf.maxFiles = MaxInt
  · simp [drainM, hmf]
  · rcases h with h | h | ⟨l, d, hl, hd⟩
    · exact absurd h hmf
    · simp [drainM, hmf, h]
    · simp only [drainM, if_neg hmf, hl, hd]
      refine ⟨?_, ?_, ?_, ?_, ?_, fun x hx => foldlRemove_eq_none hx⟩ <;>
        trivial

theorem compressM_err {conf : Conf} {cenv : CompressEnv} {e : GoErr}
    {source : String} {s : Sys} {c : List Nat} (hsrc : s.fs source = some c)
    (h : CErrAt cenv e) :
    compressM conf cenv source s = (s, some e) := by
  rcases h with h | ⟨h1, h2⟩ | ⟨h1, h2, h3⟩
  · simp [compressM, hsrc, h]
  · simp [compressM, hsrc, h1, h2]
  · simp [compressM, hsrc, h1, h2, h3]

theorem compressM_ok {conf : Conf} {source : String} {s : Sys}
    {c : List Nat} (hsrc : s.fs source = some c) :
    compressM conf ⟨none, none, none⟩ source s =
      ({ s with
        fs := fsRemove (fsSet s.fs (source ++ ".gz") (conf.gz c)) source },
       none) := by
  simp [compressM, hsrc]

theorem rotName_ne (conf : Conf) (t : GoTime) :
    rotName conf t ≠ conf.filename := by
  intro h
  have hl := congrArg String.length h
  have h1 : String.length "." = 1 := rfl
  simp only [rotName, String.length_append] at hl
  omega

theorem rotNameGz_ne (conf : Conf) (t : GoTime) :
    rotName conf t ++ ".gz" ≠ conf.filename := by
  intro h
  have hl := congrArg String.length h
  have h1 : String.length "." = 1 := rfl
  have h2 : String.length ".gz" = 3 := rfl
  simp only [rotName, String.length_append] at hl
  omega

/-- A successful drain-and-reopen tail starting from a state where the
live path is absent: ok result, fresh empty file, size counter 0, sweep
invoked once. -/
theorem rotateFinish_fresh {conf : Conf} {env : RotEnv}
    (h4 : env.oenv = ⟨none, none⟩) (h5 : DrainSafe conf env.listing)
    (s' : Sys) (hs' : s'.fs conf.filename = none) :
    (rotateFinish conf env s').2 = RotOut.ok ∧
    (rotateFinish conf env s').1.fp = true ∧
    (rotateFinish conf env s').1.fsize = 0 ∧
    (rotateFinish conf env s').1.fs conf.filename = some [] ∧
    (rotateFinish conf env s').1.sweeps = s'.sweeps + 1 := by
  obtain ⟨hp, hsw, _, _, _, hfs⟩ := drainM_safe h5 s'
  rcases hdm : drainM conf env.listing s' with ⟨s4, b⟩
  rw [hdm] at hp hsw hfs
  simp only at hp hsw hfs
  subst hp
  have hnone : s4.fs conf.filename = none := hfs _ hs'
  simp [rotateFinish, hdm, openM, hnone, h4, fsSet, hsw]

/-- After the close step, a successful rename/compress phase always ends
in `rotateFinish` from a state with the live path renamed away (or never
present) and the `sweeps` counter untouched. -/
theorem rotateRename_success {conf : Conf} {env : RotEnv} (s1 : Sys)
    (h2 : env.renameErr = none) (h3 : env.cenv = ⟨none, none, none⟩)
    (h4 : env.oenv = ⟨none, none⟩) (h5 : DrainSafe conf env.listing) :
    (rotateRename conf env s1).2 = RotOut.ok ∧
    (rotateRename conf env s1).1.fp = true ∧
    (rotateRename conf env s1).1.fsize = 0 ∧
    (rotateRename conf env s1).1.fs conf.filename = some [] ∧
    (rotateRename conf env s1).1.sweeps = s1.sweeps + 1 := by
  have hnm := rotName_ne conf env.now
  have hgz := rotNameGz_ne conf env.now
  rcases hlive : s1.fs conf.filename with _ | c
  · simp only [rotateRename, hlive]
    exact rotateFinish_fresh h4 h5 s1 hlive
  · simp only [rotateRename, hlive, h2]
    by_cases hcmp : conf.compress = true
    case neg =>
      rw [if_neg hcmp]
      have hgone : (fsRename s1.fs conf.filename (rotName conf env.now))
          conf.filename = none := by
        simp [fsRename, Ne.symm hnm]
      exact rotateFinish_fresh h4 h5 _ hgone
    case pos =>
      rw [if_pos hcmp]
      have hsrc : (fsRename s1.fs conf.filename (rotName conf env.now))
          (rotName conf env.now) = some c := by
        simp [fsRename, hlive]
      rw [h3, compressM_ok hsrc]
      have hgone : (fsRemove (fsSet
          (fsRename s1.fs conf.filename (rotName conf env.now))
          (rotName conf env.now ++ ".gz")
          (conf.gz c)) (rotName conf env.now)) conf.filename = none := by
        simp [fsRemove, fsSet, fsRename, Ne.symm hnm, Ne.symm hgz]
      exact rotateFinish_fresh h4 h5 _ hgone

/-- A fully successful rotation: ok result, handle reopened on a fresh
empty file, size counter reset, sweep invoked exactly once. -/
theorem rotateM_success {conf : Conf} {env : RotEnv} (s : Sys)
    (h1 : env.closeErr = none) (h2 : env.renameErr = none)
    (h3 : env.cenv = ⟨none, none, none⟩) (h4 : env.oenv = ⟨none, none⟩)
    (h5 : DrainSafe conf env.listing) :
    (rotateM conf env s).2 = RotOut.ok ∧
    (rotateM conf env s).1.fp = true ∧
    (rotateM conf env s).1.fsize = 0 ∧
    (rotateM conf env s).1.fs conf.filename = some [] ∧
    (rotateM conf env s).1.sweeps = s.sweeps + 1 := by
  rcases hfp : s.fp with _ | _
  · simp only [rotateM, hfp, Bool.false_eq_true, if_false]
    exact rotateRename_success s h2 h3 h4 h5
  · simp only [rotateM, hfp, if_true, h1]
    exact rotateRename_success _ h2 h3 h4 h5

theorem drainM_sweeps (conf : Conf) (listing : Option (List DirEnt))
    (s : Sys) : (drainM conf listing s).1.sweeps = s.sweeps + 1 := by
  by_cases hmf : conf.maxFiles = MaxInt
  · simp [drainM, hmf]
  · rcases listing with _ | l
    · simp [drainM, hmf]
    · rcases hd : drainDeletes conf l with e | d
      · simp [drainM, hmf, hd]
      · simp [drainM, hmf, hd]

theorem openM_sweeps (conf : Conf) (env : OpenEnv) (s : Sys) :
    (openM conf env s).1.sweeps = s.sweeps := by
  unfold openM
  split <;> split <;> rfl

/-- rotateFinish always runs the sweep exactly once, whatever else
happens. -/
theorem rotateFinish_sweeps (conf : Conf) (env : RotEnv) (s' : Sys) :
    (rotateFinish conf env s').1.sweeps = s'.sweeps + 1 := by
  rcases hdm : drainM conf env.listing s' with ⟨s4, b⟩
  have hsw := drainM_sweeps conf env.listing s'
  rw [hdm] at hsw
  simp only at hsw
  rcases b with _ | _
  · rcases hop : openM conf env.oenv s4 with ⟨s5, r⟩
    have h5 := openM_sweeps conf env.oenv s4
    rw [hop] at h5
    simp only at h5
    rcases r with _ | e
    · simp only [rotateFinish, hdm]
      rw [hop]
      simp [h5, hsw]
    · simp only [rotateFinish, hdm]
      rw [hop]
      simp [h5, hsw]
  · simp [rotateFinish, hdm, hsw]

theorem rotateRename_renameErr {conf : Conf} {env : RotEnv} (s1 : Sys)
    {c : List Nat} {e : GoErr} (hl : s1.fs conf.filename = some c)
    (hr : env.renameErr = some e) :
    rotateRename conf env s1 = (s1, RotOut.errOut e) := by
  simp [rotateRename, hl, hr]

theorem rotateRename_compressErr {conf : Conf} {env : RotEnv} (s1 : Sys)
    {c : List Nat} {e : GoErr} (hl : s1.fs conf.filename = some c)
    (hr : env.renameErr = none) (hcmp : conf.compress = true)
    (hce : CErrAt env.cenv e) :
    rotateRename conf env s1 =
      ({ s1 with
        fs := fsRename s1.fs conf.filename (rotName conf env.now) },
       RotOut.errOut e) := by
  have hsrc : (fsRename s1.fs conf.filename (rotName conf env.now))
      (rotName conf env.now) = some c := by
    simp [fsRename, hl]
  simp only [rotateRename, hl, hr, if_pos hcmp]
  rw [compressM_err hsrc hce]

theorem openM_createErr {conf : Conf} {env : OpenEnv} {s : Sys} {e : GoErr}
    (hl : s.fs conf.filename = none) (hce : env.createErr = some e) :
    openM conf env s = ({ s with fp := false, fsize := 0 }, some e) := by
  simp [openM, hl, hce]

/-- When Write finds the handle open and the threshold not exceeded, it
appends and advances the counter by the reported count. -/
theorem writeM_append {conf : Conf} (env : WriteEnv) {s : Sys}
    {out : List Nat} (hfp : s.fp = true)
    (hth : ¬ s.fsize + out.length > conf.maxSize) :
    writeM conf env s out =
      ({ s with
        fs := fsSet s.fs conf.filename ((s.fs conf.filename).getD [] ++
          out.take (min env.persist out.length)),
        fsize := s.fsize + min env.persist out.length },
       some (min env.persist out.length, env.writeErr)) := by
  simp [writeM, hfp, hth]

/-- When Write finds no handle, it first opens and then behaves as a
write from the opened state, provided opening produced a handle. -/
theorem writeM_closed {conf : Conf} {env : WriteEnv} {s : Sys}
    {out : List Nat} (hfp : s.fp = false)
    (h1 : (openM conf env.oenv s).1.fp = true) :
    writeM conf env s out =
      writeM conf env (openM conf env.oenv s).1 out := by
  simp [writeM, hfp, h1]

/-- When Write finds the handle open and the threshold exceeded, it
rotates first (under an environment in which rotation succeeds) and then
appends to the fresh file. -/
theorem writeM_threshold {conf : Conf} {env : WriteEnv} {s : Sys}
    {out : List Nat} (hfp : s.fp = true)
    (hth : s.fsize + out.length > conf.maxSize)
    (hr1 : env.renv.closeErr = none) (hr2 : env.renv.renameErr = none)
    (hr3 : env.renv.cenv = ⟨none, none, none⟩)
    (hr4 : env.renv.oenv = ⟨none, none⟩)
    (hd : DrainSafe conf env.renv.listing) :
    (writeM conf env s out).2 =
      some (min env.persist out.length, env.writeErr) ∧
    (writeM conf env s out).1.fsize = min env.persist out.length ∧
    (writeM conf env s out).1.fs conf.filename =
      some (out.take (min env.persist out.length)) ∧
    (writeM conf env s out).1.sweeps = s.sweeps + 1 := by
  obtain ⟨hok, hfp2, hsz, hlive, hsw⟩ :=
    rotateM_success s hr1 hr2 hr3 hr4 hd
  rcases hrm : rotateM conf env.renv s with ⟨s2, r⟩
  rw [hrm] at hok hfp2 hsz hlive hsw
  simp only at hok hfp2 hsz hlive hsw
  subst hok
  simp [writeM, hfp, hth, hrm, hfp2, hlive, hsz, hsw, fsSet]

theorem openM_ok_fp (conf : Conf) (env : OpenEnv) (s : Sys)
    (h : (openM conf env s).2 = none) : (openM conf env s).1.fp = true := by
  unfold openM at *
  split at h <;> split at h <;> simp_all

theorem openM_ok_created (conf : Conf) (env : OpenEnv) (s : Sys)
    (h : (openM conf env s).2 = none) (hl : s.fs conf.filename = none) :
    (openM conf env s).1.fs conf.filename = some [] := by
  unfold openM at h ⊢
  rw [hl] at h ⊢
  rcases hce : env.createErr with _ | e
  · simp [hce, fsSet]
  · rw [hce] at h
    simp at h

/-! ## The claims -/

/-- C2: on Write, if no handle is open the target is first opened or
created (created ⇒ size counter 0; existing ⇒ counter primed from the
actual on-disk length); if the counter plus the payload length exceeds
MaxSize a full rotation runs before writing (witnessed by the sweep
counter); then the payload is appended and the counter advances by
exactly the byte count the underlying write primitive reports. -/
theorem claim_C2 (conf : Conf) (env : WriteEnv) (s : Sys) (out : List Nat)
    (ho : env.oenv = ⟨none, none⟩) (hr1 : env.renv.closeErr = none)
    (hr2 : env.renv.renameErr = none)
    (hr3 : env.renv.cenv = ⟨none, none, none⟩)
    (hr4 : env.renv.oenv = ⟨none, none⟩)
    (hd : DrainSafe conf env.renv.listing) :
    (s.fp = false → s.fs conf.filename = none →
      out.length ≤ conf.maxSize →
      (writeM conf env s out).2 =
        some (min env.persist out.length, env.writeErr) ∧
      (writeM conf env s out).1.fsize = min env.persist out.length ∧
      (writeM conf env s out).1.fs conf.filename =
        some (out.take (min env.persist out.length)) ∧
      (writeM conf env s out).1.sweeps = s.sweeps) ∧
    (∀ c, s.fp = false → s.fs conf.filename = some c →
      c.length + out.length ≤ conf.maxSize →
      (writeM conf env s out).2 =
        some (min env.persist out.length, env.writeErr) ∧
      (writeM conf env s out).1.fsize =
        c.length + min env.persist out.length ∧
      (writeM conf env s out).1.fs conf.filename =
        some (c ++ out.take (min env.persist out.length)) ∧
      (writeM conf env s out).1.sweeps = s.sweeps) ∧
    (s.fp = true → s.fsize + out.length ≤ conf.maxSize →
      (writeM conf env s out).2 =
        some (min env.persist out.length, env.writeErr) ∧
      (writeM conf env s out).1.fsize =
        s.fsize + min env.persist out.length ∧
      (writeM conf env s out).1.fs conf.filename =
        some ((s.fs conf.filename).getD [] ++
          out.take (min env.persist out.length)) ∧
      (writeM conf env s out).1.sweeps = s.sweeps) ∧
    (s.fp = true → s.fsize + out.length > conf.maxSize →
      (writeM conf env s out).2 =
        some (min env.persist out.length, env.writeErr) ∧
      (writeM conf env s out).1.fsize = min env.persist out.length ∧
      (writeM conf env s out).1.fs conf.filename =
        some (out.take (min env.persist out.length)) ∧
      (writeM conf env s out).1.sweeps = s.sweeps + 1) := by
  refine ⟨?_, ?_, ?_, ?_⟩
  · intro hfp hlive hle
    have hopen : openM conf env.oenv s =
        ({ s with
          fs := fsSet s.fs conf.filename [],
          fp := true,
          handles := s.handles + 1,
          fsize := 0 }, none) := by
      rw [ho]
      simp [openM, hlive]
    have h1 : (openM conf env.oenv s).1.fp = true := by rw [hopen]
    rw [writeM_closed hfp h1, hopen]
    rw [writeM_append env rfl (by simpa using by omega)]
    refine ⟨rfl, by simp, ?_, rfl⟩
    simp [fsSet]
  · intro c hfp hlive hle
    have hopen : openM conf env.oenv s =
        ({ s with
          fp := true,
          handles := s.handles + 1,
          fsize := c.length }, none) := by
      rw [ho]
      simp [openM, hlive]
    have h1 : (openM conf env.oenv s).1.fp = true := by rw [hopen]
    rw [writeM_closed hfp h1, hopen]
    rw [writeM_append env rfl (by simpa using by omega)]
    refine ⟨rfl, rfl, ?_, rfl⟩
    simp [fsSet, hlive]
  · intro hfp hle
    rw [writeM_append env hfp (by omega)]
    exact ⟨rfl, rfl, by simp [fsSet], rfl⟩
  · intro hfp hth
    exact writeM_threshold hfp hth hr1 hr2 hr3 hr4 hd

theorem claim_C2_witness :
    (writeM confW okWEnv sFresh [7, 8]).2 = some (2, none) ∧
    (writeM confW okWEnv sFresh [7, 8]).1.fsize = 2 ∧
    (writeM confW okWEnv sFresh [7, 8]).1.fs "f" = some [7, 8] := by
  have h := (claim_C2 confW okWEnv sFresh [7, 8] rfl rfl rfl rfl rfl
      (Or.inr (Or.inl rfl))).1 rfl rfl (by decide)
  exact ⟨h.1.trans (by decide), h.2.1.trans (by decide),
    h.2.2.1.trans (by decide)⟩

/-- C3: Rotate closes an open handle first (a close failure is returned
with the writer closed); a rename failure is returned with the filesystem
untouched and the writer closed; a compress failure is returned with the
uncompressed archive still on disk and the writer closed; the retention
sweep runs even when nothing was renamed; a reopen failure is returned
leaving the writer closed; a fully successful rotation ends open on a
fresh empty file with the counter reset after exactly one sweep. -/
theorem claim_C3 (conf : Conf) (env : RotEnv) (s : Sys) :
    (∀ e, s.fp = true → env.closeErr = some e →
      rotateM conf env s =
        ({ s with fp := false, handles := s.handles - 1 },
          RotOut.errOut e)) ∧
    (∀ e c, (s.fp = true → env.closeErr = none) →
      s.fs conf.filename = some c → env.renameErr = some e →
      (rotateM conf env s).2 = RotOut.errOut e ∧
      (rotateM conf env s).1.fp = false ∧
      (rotateM conf env s).1.fs = s.fs ∧
      (rotateM conf env s).1.sweeps = s.sweeps) ∧
    (∀ e c, (s.fp = true → env.closeErr = none) →
      s.fs conf.filename = some c → env.renameErr = none →
      conf.compress = true → CErrAt env.cenv e →
      (rotateM conf env s).2 = RotOut.errOut e ∧
      (rotateM conf env s).1.fp = false ∧
      (rotateM conf env s).1.fs (rotName conf env.now) = some c ∧
      (rotateM conf env s).1.fs conf.filename = none ∧
      (rotateM conf env s).1.sweeps = s.sweeps) ∧
    ((s.fp = true → env.closeErr = none) → s.fs conf.filename = none →
      (rotateM conf env s).1.sweeps = s.sweeps + 1) ∧
    (∀ e, (s.fp = true → env.closeErr = none) →
      s.fs conf.filename = none → DrainSafe conf env.listing →
      env.oenv.createErr = some e →
      (rotateM conf env s).2 = RotOut.errOut e ∧
      (rotateM conf env s).1.fp = false) ∧
    (env.closeErr = none → env.renameErr = none →
      env.cenv = ⟨none, none, none⟩ → env.oenv = ⟨none, none⟩ →
      DrainSafe conf env.listing →
      (rotateM conf env s).2 = RotOut.ok ∧
      (rotateM conf env s).1.fp = true ∧
      (rotateM conf env s).1.fsize = 0 ∧
      (rotateM conf env s).1.fs conf.filename = some [] ∧
      (rotateM conf env s).1.sweeps = s.sweeps + 1) := by
  have hnm := rotName_ne conf env.now
  refine ⟨?_, ?_, ?_, ?_, ?_, ?_⟩
  · intro e hfp hce
    simp [rotateM, hfp, hce]
  · intro e c hcl hl hr
    rcases hfp : s.fp with _ | _
    · simp only [rotateM, hfp, Bool.false_eq_true, if_false]
      rw [rotateRename_renameErr s hl hr]
      exact ⟨rfl, hfp, rfl, rfl⟩
    · simp only [rotateM, hfp, if_true, hcl hfp]
      rw [rotateRename_renameErr
        { s with fp := false, handles := s.handles - 1 } hl hr]
      exact ⟨rfl, rfl, rfl, rfl⟩
  · intro e c hcl hl hr hcmp hce
    rcases hfp : s.fp with _ | _
    · simp only [rotateM, hfp, Bool.false_eq_true, if_false]
      rw [rotateRename_compressErr s hl hr hcmp hce]
      refine ⟨rfl, hfp, ?_, ?_, rfl⟩
      · simp [fsRename, hl]
      · simp [fsRename, Ne.symm hnm]
    · simp only [rotateM, hfp, if_true, hcl hfp]
      rw [rotateRename_compressErr
        { s with fp := false, handles := s.handles - 1 } hl hr hcmp hce]
      refine ⟨rfl, rfl, ?_, ?_, rfl⟩
      · simp [fsRename, hl]
      · simp [fsRename, Ne.symm hnm]
  · intro hcl hl
    have aux : ∀ s1 : Sys, s1.fs conf.filename = none →
        (rotateRename conf env s1).1.sweeps = s1.sweeps + 1 := by
      intro s1 hl1
      simp only [rotateRename, hl1]
      exact rotateFinish_sweeps conf env s1
    rcases hfp : s.fp with _ | _
    · simp only [rotateM, hfp, Bool.false_eq_true, if_false]
      exact aux s hl
    · simp only [rotateM, hfp, if_true, hcl hfp]
      exact aux _ hl
  · intro e hcl hl hds hce
    have aux : ∀ s1 : Sys, s1.fs conf.filename = none →
        (rotateRename conf env s1).2 = RotOut.errOut e ∧
        (rotateRename conf env s1).1.fp = false := by
      intro s1 hl1
      obtain ⟨hp, _, _, _, _, hfs⟩ := drainM_safe hds s1
      rcases hdm : drainM conf env.listing s1 with ⟨s4, b⟩
      rw [hdm] at hp hfs
      simp only at hp hfs
      subst hp
      have hnone : s4.fs conf.filename = none := hfs _ hl1
      simp only [rotateRename, hl1, rotateFinish, hdm,
        openM_createErr hnone hce]
      refine ⟨?_, ?_⟩ <;> trivial
    rcases hfp : s.fp with _ | _
    · simp only [rotateM, hfp, Bool.false_eq_true, if_false]
      exact aux s hl
    · simp only [rotateM, hfp, if_true, hcl hfp]
      exact aux _ hl
  · intro h1 h2 h3 h4 h5
    exact rotateM_success s h1 h2 h3 h4 h5

theorem claim_C3_witness :
    (rotateM confW okREnv sOpenA).2 = RotOut.ok ∧
    (rotateM confW okREnv sOpenA).1.fp = true ∧
    (rotateM confW okREnv sOpenA).1.fsize = 0 ∧
    (rotateM confW okREnv sOpenA).1.fs "f" = some [] ∧
    (rotateM confW okREnv sOpenA).1.sweeps = 1 := by
  have h := (claim_C3 confW okREnv sOpenA).2.2.2.2.2 rfl rfl rfl rfl
    (Or.inr (Or.inl rfl))
  exact h

/-- C6: code bug — Close when already closed is indeed a silent no-op,
but Close on an open writer first nils fp and then calls Close on the
now-nil handle: it returns ErrInvalid and the descriptor that was held is
never released. -/
theorem claim_C6 :
    closeM sClosedB = (sClosedB, none) ∧
    (closeM sOpenB).2 = some GoErr.errInvalid ∧
    (closeM sOpenB).1.handles = 1 ∧
    (closeM sOpenB).1.fp = false :=
  ⟨rfl, rfl, rfl, rfl⟩

/-- C7: code bug — Write discards the implicit open's error (fsErr 13 is
replaced by the ErrInvalid of writing on a nil handle) and likewise the
threshold rotation's error (fsErr 30), though a partial write's count is
still reported alongside its error. -/
theorem claim_C7 :
    (writeM confW wenvOpenFail sFresh [1, 2, 3]).2 =
      some (0, some GoErr.errInvalid) ∧
    (writeM confW wenvRotFail sNearFull [1, 2, 3]).2 =
      some (0, some GoErr.errInvalid) ∧
    (writeM confW wenvPartial sOpenB [5, 6, 7]).2 =
      some (2, some (GoErr.fsErr 28)) :=
  ⟨rfl, rfl, rfl⟩

/-- C9: code bug — Open while a handle is already open opens a second
descriptor and overwrites fp without closing the first: two descriptors
are then open for the path. -/
theorem claim_C9 :
    (openM confW okOpen sFresh).1.handles = 1 ∧
    (openM confW okOpen (openM confW okOpen sFresh).1).1.handles = 2 ∧
    (openM confW okOpen (openM confW okOpen sFresh).1).1.fp = true :=
  ⟨rfl, rfl, rfl⟩

/-- C10: NewRotateWriter fills in defaults MaxSize = 10·2^20, MaxFiles =
MaxInt (the unbounded sentinel) and Compress = true, opens (creating if
absent) the file immediately, and returns nil — not an error — when that
initial open fails. -/
theorem claim_C10 (gzip0 : List Nat → List Nat) (filename : String)
    (env : OpenEnv) (s : Sys) :
    (∀ conf s1, newRotateWriter gzip0 filename env s = some (conf, s1) →
      conf.filename = filename ∧ conf.maxSize = 10 * 2 ^ 20 ∧
      conf.maxFiles = MaxInt ∧ conf.compress = true ∧
      s1.fp = true ∧
      (s.fs filename = none → s1.fs filename = some [])) ∧
    (∀ e, (openM ⟨filename, DefaultMaxSize, DefaultMaxFiles, true, gzip0⟩
        env s).2 = some e →
      newRotateWriter gzip0 filename env s = none) := by
  constructor
  · intro conf s1 h
    simp only [newRotateWriter] at h
    rcases hop : openM ⟨filename, DefaultMaxSize, DefaultMaxFiles, true,
        gzip0⟩ env s with ⟨s1', r⟩
    rw [hop] at h
    rcases r with _ | e
    · simp only at h
      have h' := Option.some.inj h
      have h1 : (⟨filename, DefaultMaxSize, DefaultMaxFiles, true,
          gzip0⟩ : Conf) = conf := congrArg Prod.fst h'
      have h2 : s1' = s1 := congrArg Prod.snd h'
      subst h1
      subst h2
      have hfp := openM_ok_fp ⟨filename, DefaultMaxSize,
        DefaultMaxFiles, true, gzip0⟩ env s (by rw [hop])
      rw [hop] at hfp
      refine ⟨rfl, rfl, rfl, rfl, hfp, fun hl => ?_⟩
      have hcr := openM_ok_created ⟨filename, DefaultMaxSize,
        DefaultMaxFiles, true, gzip0⟩ env s (by rw [hop]) hl
      rw [hop] at hcr
      exact hcr
    · simp at h
  · intro e h
    simp only [newRotateWriter]
    rcases hop : openM ⟨filename, DefaultMaxSize, DefaultMaxFiles, true,
        gzip0⟩ env s with ⟨s1', r⟩
    rw [hop] at h
    simp only at h
    subst h
    rfl

theorem claim_C10_witness :
    confD.maxSize = 10 * 2 ^ 20 ∧ confD.maxFiles = MaxInt ∧
    confD.compress = true ∧ sD.fp = true ∧ sD.fs "f" = some [] ∧
    newRotateWriter id "f" failCreateEnv sFresh = none := by
  have h1 := (claim_C10 id "f" okOpen sFresh).1 confD sD rfl
  have h2 := (claim_C10 id "f" failCreateEnv sFresh).2 (GoErr.fsErr 13) rfl
  exact ⟨h1.2.1, h1.2.2.1, h1.2.2.2.1, h1.2.2.2.2.1, h1.2.2.2.2.2 rfl, h2⟩

/-- C4 (amended: assuming the fragment-collection loop completes without
faulting on a too-short name): with bounded maxFiles the sweep partitions
the recognized archives into the newest maxFiles, which it retains, and
the remaining older ones, which it deletes — every deleted fragment's
instant is at most every retained fragment's instant; with unbounded
maxFiles the sweep is a no-op deleting nothing. -/
theorem claim_C4 (conf : Conf) (entries : List DirEnt) :
    (conf.maxFiles = MaxInt → drainDeletes conf entries = Except.ok []) ∧
    (conf.maxFiles ≠ MaxInt →
      ∀ frags, collectFrags conf entries = Except.ok frags →
      ∃ ret del, drainPlan conf entries = Except.ok (ret, del) ∧
        drainDeletes conf entries =
          Except.ok (del.map fun f => f.ent.name) ∧
        (ret ++ del).Perm frags ∧
        ret.length = min conf.maxFiles frags.length ∧
        (∀ d ∈ del, ∀ r ∈ ret, d.t.toSec ≤ r.t.toSec)) := by
  constructor
  · intro h
    simp [drainDeletes, drainPlan, h, Except.map]
  · intro h frags hc
    refine ⟨(frags.mergeSort byTimeLe).take conf.maxFiles,
      (frags.mergeSort byTimeLe).drop conf.maxFiles, ?_, ?_, ?_, ?_, ?_⟩
    · simp [drainPlan, h, hc]
    · simp [drainDeletes, drainPlan, h, hc, Except.map, List.map_drop]
    · rw [List.take_append_drop]
      exact List.mergeSort_perm frags byTimeLe
    · rw [List.length_take, (List.mergeSort_perm frags byTimeLe).length_eq]
    · intro d hd r hr
      have hs := List.sorted_mergeSort byTimeLe_trans
        byTimeLe_total frags
      rw [← List.take_append_drop conf.maxFiles
        (frags.mergeSort byTimeLe)] at hs
      have hrd := (List.pairwise_append.mp hs).2.2 r hr d hd
      simpa [byTimeLe] using hrd

theorem claim_C4_witness :
    ∃ ret del, drainPlan confW entsW = Except.ok (ret, del) ∧
      drainDeletes confW entsW =
        Except.ok (del.map fun f => f.ent.name) ∧
      (ret ++ del).Perm fragsW ∧
      ret.length = min confW.maxFiles fragsW.length ∧
      (∀ d ∈ del, ∀ r ∈ ret, d.t.toSec ≤ r.t.toSec) :=
  (claim_C4 confW entsW).2 (by decide) fragsW rfl

/-- C4 counterexample to the unamended claim: in a directory holding two
archives and one unrelated short-named file, a sweep with maxFiles = 1
does not delete the older archive — the fragment loop faults on the short
name first. -/
theorem claim_C4_counterexample :
    drainDeletes confW entsC4x = Except.error () ∧
    drainDeletes confW entsC4x ≠ Except.ok [entOld.name] := by
  refine ⟨rfl, ?_⟩
  rw [show drainDeletes confW entsC4x = Except.error () from rfl]
  intro h
  exact Except.noConfusion h

/-- C5: code bug — the sweep slices `file[len(base)+1 : len(base)+26]` at
a fixed offset, so a directory entry whose name is shorter (here "x", a
plain unrelated file) makes the sweep panic instead of being silently
ignored. -/
theorem claim_C5 :
    drainDeletes confW [entShort] = Except.error () := rfl

/-- C8: code bug — a rotation at an instant whose zone offset is zero
(UTC) embeds the 20-character `...Z` form of RFC3339, so the archive name
is shorter than len(base)+26 and the sweeper's fixed-width extraction
faults on the writer's own archive (with or without the .gz suffix),
instead of parsing the timestamp back. -/
theorem claim_C8 :
    tZ.valid ∧
    GoTime.fmt tZ = "2026-10-12T12:34:56Z" ∧
    rotName confC8 tZ = "comrot.log.2026-10-12T12:34:56Z" ∧
    drainDeletes confC8 [⟨rotName confC8 tZ, false⟩] = Except.error () ∧
    drainDeletes confC8 [⟨rotName confC8 tZ ++ ".gz", false⟩] =
      Except.error () :=
  ⟨by decide, rfl, rfl, rfl, rfl⟩

/-! ### Archive names are distinct -/

theorem str_ext {a b : String} (h : a.data = b.data) : a = b := by
  cases a
  cases b
  exact congrArg String.mk h

theorem rotName_inj {conf : Conf} {t u : GoTime} (ht : t.valid)
    (hu : u.valid) (h : rotName conf t = rotName conf u) : t = u := by
  apply fmt_inj ht hu
  have hd := congrArg String.data h
  have e : ∀ a b : String, (a ++ b).data = a.data ++ b.data :=
    fun a b => rfl
  simp only [rotName, e] at hd
  rw [List.append_assoc, List.append_assoc] at hd
  exact str_ext (List.append_cancel_left (List.append_cancel_left hd))

theorem zoneChars_len (off : Int) :
    (zoneChars off).length = 1 ∨ (zoneChars off).length = 6 := by
  by_cases h : off = 0
  · left
    simp [zoneChars, h]
  · right
    simp [zoneChars, h, pad2]

theorem fmt_len (t : GoTime) :
    t.fmt.length = 20 ∨ t.fmt.length = 25 := by
  have hz := zoneChars_len t.offMin
  have he : t.fmt.length = t.fmtChars.length := rfl
  have hc : t.fmtChars.length = 19 + (zoneChars t.offMin).length := by
    simp [GoTime.fmtChars, pad4, pad2]
    omega
  omega

theorem rotNameGz_ne_rotName (conf : Conf) (p t : GoTime) :
    rotName conf p ++ ".gz" ≠ rotName conf t := by
  intro h
  have hl := congrArg String.length h
  have e1 : String.length "." = 1 := rfl
  have e2 : String.length ".gz" = 3 := rfl
  have ep : (GoTime.fmt p).length = 20 ∨ (GoTime.fmt p).length = 25 :=
    fmt_len p
  have et : (GoTime.fmt t).length = 20 ∨ (GoTime.fmt t).length = 25 :=
    fmt_len t
  simp only [rotName, String.length_append] at hl
  omega

theorem gzSuffix_ne (a : String) : a ++ ".gz" ≠ a := by
  intro h
  have hl := congrArg String.length h
  have e2 : String.length ".gz" = 3 := rfl
  simp only [String.length_append] at hl
  omega

theorem encName_inj {conf : Conf} {t u : GoTime} (ht : t.valid)
    (hu : u.valid) (h : encName conf t = encName conf u) : t = u := by
  unfold encName at h
  by_cases hc : conf.compress = true
  · rw [if_pos hc, if_pos hc] at h
    have hd := congrArg String.data h
    have e : ∀ a b : String, (a ++ b).data = a.data ++ b.data :=
      fun a b => rfl
    simp only [e] at hd
    exact rotName_inj ht hu (str_ext (List.append_cancel_right hd))
  · rw [if_neg hc, if_neg hc] at h
    exact rotName_inj ht hu h

theorem encName_ne_filename (conf : Conf) (t : GoTime) :
    encName conf t ≠ conf.filename := by
  unfold encName
  split
  · exact rotNameGz_ne conf t
  · exact rotName_ne conf t

theorem encName_ne_rotName (conf : Conf) (p t : GoTime)
    (hc : conf.compress = true) :
    encName conf p ≠ rotName conf t := by
  unfold encName
  rw [if_pos hc]
  exact rotNameGz_ne_rotName conf p t

/-! ### Full-state lemmas for the successful operations of a trace -/

theorem closeM_fs (s : Sys) : (closeM s).1.fs = s.fs := by
  unfold closeM
  split <;> rfl

theorem openM_okOpen_fp (conf : Conf) (s : Sys) :
    (openM conf okOpen s).1.fp = true := by
  rcases hl : s.fs conf.filename with _ | c <;> simp [openM, hl, okOpen]

theorem openM_full_none {conf : Conf} {s : Sys}
    (hl : s.fs conf.filename = none) :
    openM conf okOpen s =
      ({ s with
        fs := fsSet s.fs conf.filename [],
        fp := true,
        handles := s.handles + 1,
        fsize := 0 }, none) := by
  simp [openM, hl, okOpen]

theorem openM_full_some {conf : Conf} {s : Sys} {c : List Nat}
    (hl : s.fs conf.filename = some c) :
    openM conf okOpen s =
      ({ s with
        fp := true,
        handles := s.handles + 1,
        fsize := c.length }, none) := by
  simp [openM, hl, okOpen]

theorem rotateM_full_none (conf : Conf) (t : GoTime) {s : Sys}
    (hmf : conf.maxFiles = MaxInt) (hl : s.fs conf.filename = none) :
    rotateM conf (rotEnvAt t) s =
      ({ s with
        fs := fsSet s.fs conf.filename [],
        fp := true,
        fsize := 0,
        handles := (if s.fp then s.handles - 1 else s.handles) + 1,
        sweeps := s.sweeps + 1 }, RotOut.ok) := by
  rcases hfp : s.fp with _ | _ <;>
    simp [rotateM, hfp, rotEnvAt, rotateRename, hl, rotateFinish, drainM,
      hmf, openM, okOpen]

theorem rotateM_full_plain (conf : Conf) (t : GoTime) {s : Sys}
    {c : List Nat} (hmf : conf.maxFiles = MaxInt)
    (hcf : conf.compress = false) (hl : s.fs conf.filename = some c) :
    rotateM conf (rotEnvAt t) s =
      ({ s with
        fs := fsSet (fsRename s.fs conf.filename (rotName conf t))
          conf.filename [],
        fp := true,
        fsize := 0,
        handles := (if s.fp then s.handles - 1 else s.handles) + 1,
        sweeps := s.sweeps + 1 }, RotOut.ok) := by
  have hgone : (fsRename s.fs conf.filename (rotName conf t))
      conf.filename = none := by
    simp [fsRename, Ne.symm (rotName_ne conf t)]
  rcases hfp : s.fp with _ | _ <;>
    simp [rotateM, hfp, rotEnvAt, rotateRename, hl, hcf, rotateFinish,
      drainM, hmf, openM, okOpen, hgone]

theorem rotateM_full_gz (conf : Conf) (t : GoTime) {s : Sys}
    {c : List Nat} (hmf : conf.maxFiles = MaxInt)
    (hct : conf.compress = true) (hl : s.fs conf.filename = some c) :
    rotateM conf (rotEnvAt t) s =
      ({ s with
        fs := fsSet (fsRemove (fsSet
          (fsRename s.fs conf.filename (rotName conf t))
          (rotName conf t ++ ".gz") (conf.gz c)) (rotName conf t))
          conf.filename [],
        fp := true,
        fsize := 0,
        handles := (if s.fp then s.handles - 1 else s.handles) + 1,
        sweeps := s.sweeps + 1 }, RotOut.ok) := by
  have hsrc : (fsRename s.fs conf.filename (rotName conf t))
      (rotName conf t) = some c := by
    simp [fsRename, hl]
  have hgone : (fsRemove (fsSet
      (fsRename s.fs conf.filename (rotName conf t))
      (rotName conf t ++ ".gz") (conf.gz c)) (rotName conf t))
      conf.filename = none := by
    simp [fsRemove, fsSet, fsRename, Ne.symm (rotName_ne conf t),
      Ne.symm (rotNameGz_ne conf t)]
  rcases hfp : s.fp with _ | _ <;>
    simp [rotateM, hfp, rotEnvAt, rotateRename, hl, hct, compressM, hsrc,
      okCEnv, rotateFinish, drainM, hmf, openM, okOpen, hgone]

/-! ### The invariant is preserved by each trace step -/

theorem goodFs_setLive {conf : Conf} {arch : List (GoTime × List Nat)}
    {written : List Nat} {fs : String → Option (List Nat)}
    (hG : GoodFs conf arch written fs) (v : List Nat) :
    GoodFs conf arch ((arch.map Prod.snd).flatten ++ v)
      (fsSet fs conf.filename v) := by
  obtain ⟨h1, h2, h3⟩ := hG
  refine ⟨fun p hp => ?_, ?_, fun name hn1 hn2 => ?_⟩
  · rw [show fsSet fs conf.filename v (encName conf p.1) =
        fs (encName conf p.1) by
      simp [fsSet, encName_ne_filename conf p.1]]
    exact h1 p hp
  · simp [fsSet]
  · rw [show fsSet fs conf.filename v name = fs name by
      simp [fsSet, hn1]]
    exact h3 name hn1 hn2

theorem goodFs_append {conf : Conf} {arch : List (GoTime × List Nat)}
    {written : List Nat} {fs : String → Option (List Nat)}
    (hG : GoodFs conf arch written fs) (chunk : List Nat) :
    GoodFs conf arch (written ++ chunk)
      (fsSet fs conf.filename ((fs conf.filename).getD [] ++ chunk)) := by
  have h := goodFs_setLive hG ((fs conf.filename).getD [] ++ chunk)
  rwa [← List.append_assoc, hG.2.1] at h

theorem goodFs_create {conf : Conf} {arch : List (GoTime × List Nat)}
    {written : List Nat} {fs : String → Option (List Nat)}
    (hG : GoodFs conf arch written fs) (hl : fs conf.filename = none) :
    GoodFs conf arch written (fsSet fs conf.filename []) := by
  have h := goodFs_setLive hG []
  rw [List.append_nil] at h
  have h2 := hG.2.1
  rw [hl] at h2
  simp only [Option.getD_none, List.append_nil] at h2
  rwa [h2] at h

/-- Rotating archives the live contents: the invariant extends by one
archive entry, uncompressed flavour. -/
theorem goodFs_rotate_plain {conf : Conf}
    {arch : List (GoTime × List Nat)} {written : List Nat}
    {fs : String → Option (List Nat)} {t : GoTime} {c : List Nat}
    (hcf : conf.compress = false) (hG : GoodFs conf arch written fs)
    (hl : fs conf.filename = some c) (ht : t.valid)
    (harchv : ∀ p ∈ arch, p.1.valid) (hne : ∀ p ∈ arch, p.1 ≠ t) :
    GoodFs conf (arch ++ [(t, c)]) written
      (fsSet (fsRename fs conf.filename (rotName conf t))
        conf.filename []) := by
  obtain ⟨h1, h2, h3⟩ := hG
  have hrotlive := rotName_ne conf t
  refine ⟨fun p hp => ?_, ?_, fun name hn1 hn2 => ?_⟩
  · rcases List.mem_append.mp hp with hp | hp
    · have hpn : encName conf p.1 ≠ rotName conf t := by
        intro h
        unfold encName at h
        rw [if_neg (by simp [hcf])] at h
        exact hne p hp (rotName_inj (harchv p hp) ht h)
      rw [show fsSet (fsRename fs conf.filename (rotName conf t))
          conf.filename [] (encName conf p.1) =
          fs (encName conf p.1) by
        simp [fsSet, fsRename, encName_ne_filename conf p.1, hpn]]
      exact h1 p hp
    · have hp' : p = (t, c) := by simpa using hp
      subst hp'
      have he : encName conf t = rotName conf t := by
        simp [encName, hcf]
      rw [he]
      rw [show fsSet (fsRename fs conf.filename (rotName conf t))
          conf.filename [] (rotName conf t) = fs conf.filename by
        simp [fsSet, fsRename, hrotlive]]
      rw [hl]
      simp [encBytes, hcf]
  · simp only [List.map_append, List.flatten_append, fsSet, if_pos rfl]
    rw [hl] at h2
    simp only [Option.getD_some] at h2
    simp [← h2]
  · have hnt : name ≠ encName conf t := by
      intro h
      exact hn2 (t, c) (List.mem_append.mpr (Or.inr (by simp))) h
    have hnr : name ≠ rotName conf t := by
      rwa [show rotName conf t = encName conf t by simp [encName, hcf]]
    rw [show fsSet (fsRename fs conf.filename (rotName conf t))
        conf.filename [] name = fs name by
      simp [fsSet, fsRename, hn1, hnr]]
    exact h3 name hn1 fun p hp =>
      hn2 p (List.mem_append.mpr (Or.inl hp))

/-- Rotating archives the live contents, compressed flavour: rename,
gzip to the `.gz` name, remove the uncompressed archive, reopen. -/
theorem goodFs_rotate_gz {conf : Conf}
    {arch : List (GoTime × List Nat)} {written : List Nat}
    {fs : String → Option (List Nat)} {t : GoTime} {c : List Nat}
    (hct : conf.compress = true) (hG : GoodFs conf arch written fs)
    (hl : fs conf.filename = some c) (ht : t.valid)
    (harchv : ∀ p ∈ arch, p.1.valid) (hne : ∀ p ∈ arch, p.1 ≠ t) :
    GoodFs conf (arch ++ [(t, c)]) written
      (fsSet (fsRemove (fsSet
        (fsRename fs conf.filename (rotName conf t))
        (rotName conf t ++ ".gz") (conf.gz c)) (rotName conf t))
        conf.filename []) := by
  obtain ⟨h1, h2, h3⟩ := hG
  have hrotlive := rotName_ne conf t
  have hgzrot : rotName conf t ++ ".gz" ≠ rotName conf t := gzSuffix_ne _
  refine ⟨fun p hp => ?_, ?_, fun name hn1 hn2 => ?_⟩
  · rcases List.mem_append.mp hp with hp | hp
    · have hpr : encName conf p.1 ≠ rotName conf t :=
        encName_ne_rotName conf p.1 t hct
      have hpt : encName conf p.1 ≠ rotName conf t ++ ".gz" := by
        intro h
        apply hne p hp
        apply encName_inj (harchv p hp) ht
        rw [h]
        simp [encName, hct]
      rw [show fsSet (fsRemove (fsSet
          (fsRename fs conf.filename (rotName conf t))
          (rotName conf t ++ ".gz") (conf.gz c)) (rotName conf t))
          conf.filename [] (encName conf p.1) =
          fs (encName conf p.1) by
        simp [fsSet, fsRemove, fsRename, encName_ne_filename conf p.1,
          hpr, hpt]]
      exact h1 p hp
    · have hp' : p = (t, c) := by simpa using hp
      subst hp'
      have he : encName conf t = rotName conf t ++ ".gz" := by
        simp [encName, hct]
      rw [he]
      rw [show fsSet (fsRemove (fsSet
          (fsRename fs conf.filename (rotName conf t))
          (rotName conf t ++ ".gz") (conf.gz c)) (rotName conf t))
          conf.filename [] (rotName conf t ++ ".gz") =
          some (conf.gz c) by
        simp [fsSet, fsRemove, fsRename, hgzrot, rotNameGz_ne conf t,
          Ne.symm (rotNameGz_ne conf t)]]
      simp [encBytes, hct]
  · simp only [List.map_append, List.flatten_append, fsSet, if_pos rfl]
    rw [hl] at h2
    simp only [Option.getD_some] at h2
    simp [← h2]
  · have hnt : name ≠ rotName conf t ++ ".gz" := by
      intro h
      refine hn2 (t, c) (List.mem_append.mpr (Or.inr (by simp))) ?_
      rw [h]
      simp [encName, hct]
    by_cases hnr : name = rotName conf t
    · rw [show fsSet (fsRemove (fsSet
          (fsRename fs conf.filename (rotName conf t))
          (rotName conf t ++ ".gz") (conf.gz c)) (rotName conf t))
          conf.filename [] name = none by
        simp [fsSet, fsRemove, hn1, hnr, hrotlive]]
    · rw [show fsSet (fsRemove (fsSet
          (fsRename fs conf.filename (rotName conf t))
          (rotName conf t ++ ".gz") (conf.gz c)) (rotName conf t))
          conf.filename [] name = fs name by
        simp [fsSet, fsRemove, fsRename, hn1, hnr, hnt]]
      exact h3 name hn1 fun p hp =>
        hn2 p (List.mem_append.mpr (Or.inl hp))

theorem writeM_rot (conf : Conf) (env : WriteEnv) {s s2 : Sys}
    {out : List Nat} (hfp : s.fp = true)
    (hth : s.fsize + out.length > conf.maxSize)
    (hrm : rotateM conf env.renv s = (s2, RotOut.ok))
    (hfp2 : s2.fp = true) :
    writeM conf env s out =
      ({ s2 with
        fs := fsSet s2.fs conf.filename
          ((s2.fs conf.filename).getD [] ++
            out.take (min env.persist out.length)),
        fsize := s2.fsize + min env.persist out.length },
       some (min env.persist out.length, env.writeErr)) := by
  simp [writeM, hfp, hth, hrm, hfp2]

/-- One Write from an opened state preserves the invariant, possibly
adding one archive (the threshold rotation) and always appending the
reported chunk. -/
theorem writeM_good_open {conf : Conf} (hmf : conf.maxFiles = MaxInt)
    {arch : List (GoTime × List Nat)} {written : List Nat} {s : Sys}
    {out : List Nat} {t : GoTime} {persist : Nat}
    (hG : GoodFs conf arch written s.fs) (hfp : s.fp = true)
    (ht : t.valid) (harchv : ∀ p ∈ arch, p.1.valid)
    (hne : ∀ p ∈ arch, p.1 ≠ t)
    (hPW : List.Pairwise tlt (arch.map Prod.fst))
    (hmono_t : ∀ p ∈ arch, tlt p.1 t) :
    ∃ arch',
      GoodFs conf arch' (written ++ chunkOf out persist)
        ((writeM conf ⟨okOpen, rotEnvAt t, persist, none⟩ s out).1).fs ∧
      (∀ p ∈ arch', p.1.valid) ∧
      List.Pairwise tlt (arch'.map Prod.fst) ∧
      (∀ p ∈ arch', p.1 ∈ arch.map Prod.fst ∨ p.1 = t) := by
  by_cases hth : s.fsize + out.length > conf.maxSize
  · rcases hl : s.fs conf.filename with _ | c
    · have hrm := rotateM_full_none conf t hmf hl
      have hW := writeM_rot conf ⟨okOpen, rotEnvAt t, persist, none⟩
        hfp hth hrm rfl
      refine ⟨arch, ?_, harchv, hPW,
        fun p hp => Or.inl (List.mem_map_of_mem _ hp)⟩
      rw [show ((writeM conf ⟨okOpen, rotEnvAt t, persist, none⟩
          s out).1).fs = fsSet (fsSet s.fs conf.filename []) conf.filename
          ((fsSet s.fs conf.filename [] conf.filename).getD [] ++
            out.take (min persist out.length)) by rw [hW]]
      exact goodFs_append (goodFs_create hG hl) _
    · by_cases hcmp : conf.compress = true
      · have hrm := rotateM_full_gz conf t hmf hcmp hl
        have hW := writeM_rot conf ⟨okOpen, rotEnvAt t, persist, none⟩
          hfp hth hrm rfl
        refine ⟨arch ++ [(t, c)], ?_, ?_, ?_, ?_⟩
        · rw [show ((writeM conf ⟨okOpen, rotEnvAt t, persist, none⟩
              s out).1).fs = fsSet (fsSet (fsRemove (fsSet
              (fsRename s.fs conf.filename (rotName conf t))
              (rotName conf t ++ ".gz") (conf.gz c)) (rotName conf t))
              conf.filename []) conf.filename
              ((fsSet (fsRemove (fsSet
                (fsRename s.fs conf.filename (rotName conf t))
                (rotName conf t ++ ".gz") (conf.gz c)) (rotName conf t))
                conf.filename [] conf.filename).getD [] ++
                out.take (min persist out.length)) by rw [hW]]
          exact goodFs_append
            (goodFs_rotate_gz hcmp hG hl ht harchv hne) _
        · intro p hp
          rcases List.mem_append.mp hp with hp | hp
          · exact harchv p hp
          · have hpe : p = (t, c) := by simpa using hp
            rw [hpe]
            exact ht
        · rw [List.map_append]
          refine List.pairwise_append.mpr ⟨hPW, by simp, ?_⟩
          intro a ha b hb
          simp only [List.map_cons, List.map_nil,
            List.mem_singleton] at hb
          subst hb
          obtain ⟨p, hp, hpa⟩ := List.mem_map.mp ha
          rw [← hpa]
          exact hmono_t p hp
        · intro p hp
          rcases List.mem_append.mp hp with hp | hp
          · exact Or.inl (List.mem_map_of_mem _ hp)
          · have hpe : p = (t, c) := by simpa using hp
            rw [hpe]
            exact Or.inr rfl
      · have hcf : conf.compress = false := by simpa using hcmp
        have hrm := rotateM_full_plain conf t hmf hcf hl
        have hW := writeM_rot conf ⟨okOpen, rotEnvAt t, persist, none⟩
          hfp hth hrm rfl
        refine ⟨arch ++ [(t, c)], ?_, ?_, ?_, ?_⟩
        · rw [show ((writeM conf ⟨okOpen, rotEnvAt t, persist, none⟩
              s out).1).fs = fsSet (fsSet
              (fsRename s.fs conf.filename (rotName conf t))
              conf.filename []) conf.filename
              ((fsSet (fsRename s.fs conf.filename (rotName conf t))
                conf.filename [] conf.filename).getD [] ++
                out.take (min persist out.length)) by rw [hW]]
          exact goodFs_append
            (goodFs_rotate_plain hcf hG hl ht harchv hne) _
        · intro p hp
          rcases List.mem_append.mp hp with hp | hp
          · exact harchv p hp
          · have hpe : p = (t, c) := by simpa using hp
            rw [hpe]
            exact ht
        · rw [List.map_append]
          refine List.pairwise_append.mpr ⟨hPW, by simp, ?_⟩
          intro a ha b hb
          simp only [List.map_cons, List.map_nil,
            List.mem_singleton] at hb
          subst hb
          obtain ⟨p, hp, hpa⟩ := List.mem_map.mp ha
          rw [← hpa]
          exact hmono_t p hp
        · intro p hp
          rcases List.mem_append.mp hp with hp | hp
          · exact Or.inl (List.mem_map_of_mem _ hp)
          · have hpe : p = (t, c) := by simpa using hp
            rw [hpe]
            exact Or.inr rfl
  · have hW := writeM_append ⟨okOpen, rotEnvAt t, persist, none⟩
      hfp hth
    refine ⟨arch, ?_, harchv, hPW,
      fun p hp => Or.inl (List.mem_map_of_mem _ hp)⟩
    rw [show ((writeM conf ⟨okOpen, rotEnvAt t, persist, none⟩
        s out).1).fs = fsSet s.fs conf.filename
        ((s.fs conf.filename).getD [] ++
          out.take (min persist out.length)) by rw [hW]]
    exact goodFs_append hG _

/-- Running a trace under success environments, unbounded retention and
strictly increasing clock instants preserves the archive invariant. -/
theorem runOps_good {conf : Conf} (hmf : conf.maxFiles = MaxInt)
    (ops : List Op) :
    ∀ (arch : List (GoTime × List Nat)) (written : List Nat) (s : Sys),
    GoodFs conf arch written s.fs →
    (∀ p ∈ arch, p.1.valid) →
    (∀ t ∈ opsTimes ops, t.valid) →
    (∀ p ∈ arch, ∀ t ∈ opsTimes ops, tlt p.1 t) →
    List.Pairwise tlt (opsTimes ops) →
    List.Pairwise tlt (arch.map Prod.fst) →
    ∃ arch',
      GoodFs conf arch' (written ++ writtenBytes ops)
        (runOps conf s ops).fs ∧
      (∀ p ∈ arch', p.1.valid) ∧
      List.Pairwise tlt (arch'.map Prod.fst) := by
  induction ops with
  | nil =>
    intro arch written s hG hv _ _ _ hPW
    refine ⟨arch, ?_, hv, hPW⟩
    simp only [writtenBytes, runOps, List.append_nil]
    exact hG
  | cons op rest ih =>
    intro arch written s hG hv hvt hmono hchain hPW
    cases op with
    | closeOp =>
      exact ih arch written (closeM s).1
        (by rw [closeM_fs]; exact hG) hv hvt hmono hchain hPW
    | openOp =>
      rcases hl : s.fs conf.filename with _ | c
      · exact ih arch written (openM conf okOpen s).1
          (by rw [show ((openM conf okOpen s).1).fs =
                fsSet s.fs conf.filename [] by rw [openM_full_none hl]]
              exact goodFs_create hG hl)
          hv hvt hmono hchain hPW
      · exact ih arch written (openM conf okOpen s).1
          (by rw [show ((openM conf okOpen s).1).fs = s.fs by
                rw [openM_full_some hl]]
              exact hG)
          hv hvt hmono hchain hPW
    | rotateOp t =>
      have hmem : t ∈ opsTimes (Op.rotateOp t :: rest) := by
        simp [opsTimes]
      have ht : t.valid := hvt t hmem
      obtain ⟨hlt_rest, hPWr⟩ := List.pairwise_cons.mp
        (show List.Pairwise tlt (t :: opsTimes rest) from hchain)
      have hvt' : ∀ u ∈ opsTimes rest, u.valid := fun u hu =>
        hvt u (by simp [opsTimes, hu])
      have hmono_rest : ∀ p ∈ arch, ∀ u ∈ opsTimes rest, tlt p.1 u :=
        fun p hp u hu => hmono p hp u (by simp [opsTimes, hu])
      have hmono_t : ∀ p ∈ arch, tlt p.1 t := fun p hp =>
        hmono p hp t hmem
      rcases hl : s.fs conf.filename with _ | c
      · exact ih arch written (rotateM conf (rotEnvAt t) s).1
          (by rw [show ((rotateM conf (rotEnvAt t) s).1).fs =
                fsSet s.fs conf.filename [] by
                rw [rotateM_full_none conf t hmf hl]]
              exact goodFs_create hG hl)
          hv hvt' hmono_rest hPWr hPW
      · have hne : ∀ p ∈ arch, p.1 ≠ t := by
          intro p hp heq
          have hx := hmono_t p hp
          rw [heq] at hx
          exact absurd hx (by unfold tlt; omega)
        have harchv' : ∀ p ∈ arch ++ [(t, c)], p.1.valid := by
          intro p hp
          rcases List.mem_append.mp hp with hp | hp
          · exact hv p hp
          · have hpe : p = (t, c) := by simpa using hp
            rw [hpe]
            exact ht
        have hmono' : ∀ p ∈ arch ++ [(t, c)], ∀ u ∈ opsTimes rest,
            tlt p.1 u := by
          intro p hp u hu
          rcases List.mem_append.mp hp with hp | hp
          · exact hmono_rest p hp u hu
          · have hpe : p = (t, c) := by simpa using hp
            rw [hpe]
            exact hlt_rest u hu
        have hPW'' : List.Pairwise tlt ((arch ++ [(t, c)]).map
            Prod.fst) := by
          rw [List.map_append]
          refine List.pairwise_append.mpr ⟨hPW, by simp, ?_⟩
          intro a ha b hb
          simp only [List.map_cons, List.map_nil,
            List.mem_singleton] at hb
          subst hb
          obtain ⟨p, hp, hpa⟩ := List.mem_map.mp ha
          rw [← hpa]
          exact hmono_t p hp
        by_cases hcmp : conf.compress = true
        · exact ih (arch ++ [(t, c)]) written
            (rotateM conf (rotEnvAt t) s).1
            (by rw [show ((rotateM conf (rotEnvAt t) s).1).fs =
                  fsSet (fsRemove (fsSet
                    (fsRename s.fs conf.filename (rotName conf t))
                    (rotName conf t ++ ".gz") (conf.gz c))
                    (rotName conf t)) conf.filename [] by
                  rw [rotateM_full_gz conf t hmf hcmp hl]]
                exact goodFs_rotate_gz hcmp hG hl ht hv hne)
            harchv' hvt' hmono' hPWr hPW''
        · have hcf : conf.compress = false := by simpa using hcmp
          exact ih (arch ++ [(t, c)]) written
            (rotateM conf (rotEnvAt t) s).1
            (by rw [show ((rotateM conf (rotEnvAt t) s).1).fs =
                  fsSet (fsRename s.fs conf.filename (rotName conf t))
                    conf.filename [] by
                  rw [rotateM_full_plain conf t hmf hcf hl]]
                exact goodFs_rotate_plain hcf hG hl ht hv hne)
            harchv' hvt' hmono' hPWr hPW''
    | writeOp out t persist =>
      have hmem : t ∈ opsTimes (Op.writeOp out t persist :: rest) := by
        simp [opsTimes]
      have ht : t.valid := hvt t hmem
      obtain ⟨hlt_rest, hPWr⟩ := List.pairwise_cons.mp
        (show List.Pairwise tlt (t :: opsTimes rest) from hchain)
      have hvt' : ∀ u ∈ opsTimes rest, u.valid := fun u hu =>
        hvt u (by simp [opsTimes, hu])
      have hmono_rest : ∀ p ∈ arch, ∀ u ∈ opsTimes rest, tlt p.1 u :=
        fun p hp u hu => hmono p hp u (by simp [opsTimes, hu])
      have hmono_t : ∀ p ∈ arch, tlt p.1 t := fun p hp =>
        hmono p hp t hmem
      have hne : ∀ p ∈ arch, p.1 ≠ t := by
        intro p hp heq
        have hx := hmono_t p hp
        rw [heq] at hx
        exact absurd hx (by unfold tlt; omega)
      have step : ∃ arch',
          GoodFs conf arch' (written ++ chunkOf out persist)
            ((writeM conf ⟨okOpen, rotEnvAt t, persist, none⟩
              s out).1).fs ∧
          (∀ p ∈ arch', p.1.valid) ∧
          List.Pairwise tlt (arch'.map Prod.fst) ∧
          (∀ p ∈ arch', p.1 ∈ arch.map Prod.fst ∨ p.1 = t) := by
        rcases hfp : s.fp with _ | _
        · have hfp1 : ((openM conf okOpen s).1).fp = true :=
            openM_okOpen_fp conf s
          have hwc : writeM conf ⟨okOpen, rotEnvAt t, persist, none⟩
              s out = writeM conf ⟨okOpen, rotEnvAt t, persist, none⟩
              (openM conf okOpen s).1 out :=
            writeM_closed hfp hfp1
          have hG1 : GoodFs conf arch written
              ((openM conf okOpen s).1).fs := by
            rcases hl : s.fs conf.filename with _ | c
            · rw [show ((openM conf okOpen s).1).fs =
                  fsSet s.fs conf.filename [] by
                  rw [openM_full_none hl]]
              exact goodFs_create hG hl
            · rw [show ((openM conf okOpen s).1).fs = s.fs by
                  rw [openM_full_some hl]]
              exact hG
          rw [hwc]
          exact writeM_good_open hmf hG1 hfp1 ht hv hne hPW hmono_t
        · exact writeM_good_open hmf hG hfp ht hv hne hPW hmono_t
      obtain ⟨arch1, hG1, hv1, hPW1, hmem1⟩ := step
      have hmono1 : ∀ p ∈ arch1, ∀ u ∈ opsTimes rest, tlt p.1 u := by
        intro p hp u hu
        rcases hmem1 p hp with hx | hx
        · obtain ⟨q, hq, hqe⟩ := List.mem_map.mp hx
          rw [← hqe]
          exact hmono_rest q hq u hu
        · rw [hx]
          exact hlt_rest u hu
      obtain ⟨arch2, hh1, hh2, hh3⟩ := ih arch1
        (written ++ chunkOf out persist)
        (writeM conf ⟨okOpen, rotEnvAt t, persist, none⟩ s out).1
        hG1 hv1 hvt' hmono1 hPWr hPW1
      refine ⟨arch2, ?_, hh2, hh3⟩
      have he : written ++ writtenBytes (Op.writeOp out t persist ::
          rest) = (written ++ chunkOf out persist) ++
          writtenBytes rest := by
        simp [writtenBytes, List.append_assoc]
      rw [he]
      exact hh1

theorem decBytes_encBytes {conf : Conf} {ungz : List Nat → List Nat}
    (hrt : ∀ b, ungz (conf.gz b) = b) (c : List Nat) :
    decBytes ungz conf (encBytes conf c) = c := by
  unfold decBytes encBytes
  by_cases hc : conf.compress = true
  · simp [hc, hrt]
  · simp [hc]

theorem chronoConcat_of_good {conf : Conf} {ungz : List Nat → List Nat}
    (hrt : ∀ b, ungz (conf.gz b) = b)
    {fs : String → Option (List Nat)} :
    ∀ arch : List (GoTime × List Nat),
    (∀ p ∈ arch, fs (encName conf p.1) = some (encBytes conf p.2)) →
    chronoConcat ungz conf (arch.map Prod.fst) fs =
      (arch.map Prod.snd).flatten := by
  intro arch
  induction arch with
  | nil => intro _; rfl
  | cons p rest ihc =>
    intro h
    have hd := h p (by simp)
    have htl := ihc fun q hq => h q (by simp [hq])
    simp only [List.map_cons, chronoConcat, List.flatten_cons]
    simp only [chronoConcat] at htl
    rw [hd, Option.getD_some, decBytes_encBytes hrt, htl]

/-- C1 (amended): under environments in which the filesystem collaborators
succeed, with unbounded retention (so the sweep prunes nothing by design)
and with the clock instants observed across the trace strictly
increasing, the decompressed contents of all archive files in
chronological order followed by the live file's contents are exactly the
bytes successfully reported written to the caller — rotation and
compression lose no data. -/
theorem claim_C1 (conf : Conf) (ungz : List Nat → List Nat)
    (hrt : ∀ b, ungz (conf.gz b) = b) (hmf : conf.maxFiles = MaxInt)
    (ops : List Op) (hv : ∀ t ∈ opsTimes ops, t.valid)
    (hinc : List.Pairwise tlt (opsTimes ops)) :
    ∃ ts : List GoTime,
      List.Pairwise tlt ts ∧
      chronoConcat ungz conf ts (runOps conf sFresh ops).fs ++
        ((runOps conf sFresh ops).fs conf.filename).getD [] =
        writtenBytes ops ∧
      (∀ name, name ≠ conf.filename →
        (∀ t ∈ ts, name ≠ encName conf t) →
        (runOps conf sFresh ops).fs name = none) := by
  have hG0 : GoodFs conf [] [] sFresh.fs :=
    ⟨fun p hp => absurd hp (List.not_mem_nil p), rfl,
     fun name _ _ => rfl⟩
  obtain ⟨arch, hG, hv', hPW⟩ := runOps_good hmf ops [] [] sFresh hG0
    (fun p hp => absurd hp (List.not_mem_nil p)) hv
    (fun p hp => absurd hp (List.not_mem_nil p)) hinc (by simp)
  obtain ⟨h1, h2, h3⟩ := hG
  refine ⟨arch.map Prod.fst, hPW, ?_, ?_⟩
  · rw [chronoConcat_of_good hrt arch h1]
    exact h2.trans (List.nil_append _)
  · intro name hn1 hn2
    exact h3 name hn1 fun p hp => hn2 p.1 (List.mem_map_of_mem _ hp)

theorem claim_C1_witness :
    ∃ ts : List GoTime,
      List.Pairwise tlt ts ∧
      chronoConcat id confY ts (runOps confY sFresh opsY).fs ++
        ((runOps confY sFresh opsY).fs confY.filename).getD [] =
        writtenBytes opsY ∧
      (∀ name, name ≠ confY.filename →
        (∀ t ∈ ts, name ≠ encName confY t) →
        (runOps confY sFresh opsY).fs name = none) :=
  claim_C1 confY id (fun _ => rfl) rfl opsY (by decide) (by decide)

/-- C1 counterexample to the unamended claim: two rotations at the same
formatted instant make the second rename overwrite the first archive.
After writing 97, rotating at tA, writing 98, rotating at tA again and
writing 99, the sole archive holds [98] (the [97] chunk is gone, as the
prefix-run evaluation shows it was there after the first rotation), so
the claim's concatenation yields [98, 99] while the reported written
bytes are [97, 98, 99]. -/
theorem claim_C1_counterexample :
    (runOps confX sFresh (opsX.take 2)).fs (encName confX tA) =
      some [97] ∧
    (runOps confX sFresh opsX).fs (encName confX tA) = some [98] ∧
    ((runOps confX sFresh opsX).fs confX.filename).getD [] = [99] ∧
    writtenBytes opsX = [97, 98, 99] ∧
    chronoConcat id confX [tA] (runOps confX sFresh opsX).fs ++
      ((runOps confX sFresh opsX).fs confX.filename).getD [] ≠
      writtenBytes opsX := by
  refine ⟨rfl, rfl, rfl, rfl, ?_⟩
  intro h
  rw [show chronoConcat id confX [tA] (runOps confX sFresh opsX).fs ++
      ((runOps confX sFresh opsX).fs confX.filename).getD [] =
      [98, 99] from rfl] at h
  rw [show writtenBytes opsX = [97, 98, 99] from rfl] at h
  exact absurd h (by decide)

end Comrot
